import Mathlib

/-!
Shallow embedding of the scrapinghorse extraction pipeline, polling protocol
and job router, translated from:
  src/ai_mode_parser.py
  src/app/utils/scrape_ai_mode.py
  src/app/utils/queue.py
Python strings are modelled as Lean `String` (both index by characters),
Python integers as `Nat`, dict results as structures, and exceptions as
`Except`/`Option` values.
-/

namespace Scrapinghorse

/-- Does `needle` occur at the head of `hay`? -/
def startsList (needle hay : List Char) : Bool :=
  match needle, hay with
  | [], _ => true
  | _ :: _, [] => false
  | a :: as, b :: bs => a == b && startsList as bs

/-- Does `needle` occur anywhere inside `hay`? -/
def containsList (needle hay : List Char) : Bool :=
  match hay with
  | [] => startsList needle []
  | _ :: bs => startsList needle hay || containsList needle bs

/-- Python `needle in hay` substring test. -/
def strContains (hay needle : String) : Bool :=
  containsList needle.data hay.data

/-- Split a character list at every separator matched by `p`, keeping empty
pieces, as Python `str.split(sep)` does for a one-character separator. -/
def splitChars (p : Char → Bool) : List Char → List (List Char)
  | [] => [[]]
  | c :: rest =>
    let r := splitChars p rest
    if p c then [] :: r
    else
      match r with
      | [] => [[c]]
      | h :: t => (c :: h) :: t

/-- Split a string at every character matched by `p`, keeping empty pieces. -/
def pySplitOn (s : String) (p : Char → Bool) : List String :=
  (splitChars p s.data).map (fun l => ⟨l⟩)

/-- Python `str.split()` with no argument: split on whitespace runs,
dropping empty pieces. -/
def pySplitWs (s : String) : List String :=
  (pySplitOn s (fun c => c.isWhitespace)).filter (fun w => w ≠ "")

/-- Python `str.startswith`. -/
def pyStartsWith (s pre : String) : Bool :=
  startsList pre.data s.data

/-- Python `str.endswith`. -/
def pyEndsWith (s suf : String) : Bool :=
  startsList suf.data.reverse s.data.reverse

/-- Python `str.lower` (the strings compared in this development are ASCII). -/
def pyLower (s : String) : String :=
  ⟨s.data.map Char.toLower⟩

/-- Python `s[:n]` character slicing. -/
def pyTake (s : String) (n : Nat) : String :=
  ⟨s.data.take n⟩

/-- Python `s[n:]` character slicing. -/
def pyDrop (s : String) (n : Nat) : String :=
  ⟨s.data.drop n⟩

/-- One pass of Python `str.replace(pat, rep)`: scan left to right, replacing
every non-overlapping occurrence of the non-empty pattern.  `fuel` bounds the
number of scanning steps and is instantiated with the input length. -/
def replaceGo (pat rep : List Char) : Nat → List Char → List Char
  | _, [] => []
  | 0, l => l
  | fuel + 1, c :: rest =>
    if pat ≠ [] && startsList pat (c :: rest) then
      rep ++ replaceGo pat rep fuel ((c :: rest).drop pat.length)
    else c :: replaceGo pat rep fuel rest

/-- Python `str.replace` for a non-empty pattern. -/
def pyReplace (s pat rep : String) : String :=
  ⟨replaceGo pat.data rep.data s.data.length s.data⟩

/-- `clean_text` (ai_mode_parser.py lines 34-41): strip, then collapse every
whitespace run to a single space.  Equivalent to re-joining the whitespace
split with single spaces. -/
def clean_text (text : String) : String :=
  String.intercalate " " (pySplitWs text)

/-! ### Text blocks (`parse_text_blocks` / `deduplicate_blocks`) -/

/-- A text block: Python dicts `{"type": "paragraph", "snippet": s}` and
`{"type": "list", "items": xs}`. -/
inductive Block where
  | paragraph (snippet : String)
  | list (items : List String)
deriving DecidableEq, Repr

/-- Number of distinct words shared by the two snippets:
Python `len(set(a.split()) & set(b.split()))`. -/
def commonWordCount (a b : String) : Nat :=
  (((pySplitWs a).filter (fun w => (pySplitWs b).contains w)).dedup).length

/-- The duplicate test of `deduplicate_blocks` (ai_mode_parser.py lines
284-286): both snippets longer than 20 characters and one a substring of the
other, or distinct-word overlap above 0.7 of the smaller split length.
The Python comparison `len(...) > min(...) * 0.7` is carried out on exact
rationals here (`10 * overlap > 7 * min`); for the word counts arising in
this development the float and rational comparisons agree. -/
def is_duplicate_of (snippet seen : String) : Bool :=
  decide (snippet.length > 20) && decide (seen.length > 20) &&
    (strContains seen snippet || strContains snippet seen ||
      decide (10 * commonWordCount snippet seen >
        7 * min (pySplitWs snippet).length (pySplitWs seen).length))

/-- Loop body of `deduplicate_blocks` (ai_mode_parser.py lines 275-295):
paragraphs are dropped when a previously kept snippet matches the duplicate
test; list blocks are always kept and never enter `seen_snippets`. -/
def dedupGo (seen : List String) : List Block → List Block
  | [] => []
  | Block.paragraph s :: bs =>
      if seen.any (fun t => is_duplicate_of s t) then dedupGo seen bs
      else Block.paragraph s :: dedupGo (s :: seen) bs
  | Block.list items :: bs => Block.list items :: dedupGo seen bs

/-- `deduplicate_blocks` (ai_mode_parser.py lines 269-297): deduplicate, then
cap the result at 20 blocks (`unique_blocks[:20]`). -/
def deduplicate_blocks (blocks : List Block) : List Block :=
  (dedupGo [] blocks).take 20

/-- Trailing loop of `parse_text_blocks` (ai_mode_parser.py lines 185-195):
skip paragraph blocks until 3 have been removed, keeping every list block.
`removed` is the running `paragraphs_removed` counter. -/
def trimLeadingParagraphs (removed : Nat) : List Block → List Block
  | [] => []
  | Block.paragraph s :: bs =>
      if removed < 3 then trimLeadingParagraphs (removed + 1) bs
      else Block.paragraph s :: trimLeadingParagraphs removed bs
  | Block.list items :: bs => Block.list items :: trimLeadingParagraphs removed bs

/-- The final stage of `parse_text_blocks` (ai_mode_parser.py lines 182-195):
deduplicate the assembled blocks, then drop the first 3 paragraphs. -/
def parse_text_blocks_post (blocks : List Block) : List Block :=
  trimLeadingParagraphs 0 (deduplicate_blocks blocks)

/-- Is this block a paragraph? -/
def Block.isParagraph : Block → Bool
  | Block.paragraph _ => true
  | Block.list _ => false

/-! ### URL unwrapping (`unwrap_google_url`, `extract_domain`)

`urllib.parse.parse_qs` splits the query string on `&`, drops fields without
a `=` or with an empty value (`keep_blank_values=False`), and percent-plus
decodes names and values (`unquote_plus`, UTF-8 with replacement characters
for undecodable byte runs).  `urlparse(...).netloc` strips a leading
`scheme:` when the scheme is well formed and then takes the text between
`//` and the next `/`, `?` or `#`. -/

/-- Value of an ASCII hexadecimal digit. -/
def hexVal (c : Char) : Option Nat :=
  if '0' ≤ c && c ≤ '9' then some (c.toNat - 48)
  else if 'a' ≤ c && c ≤ 'f' then some (c.toNat - 87)
  else if 'A' ≤ c && c ≤ 'F' then some (c.toNat - 55)
  else none

/-- Unicode replacement character, produced for undecodable byte runs. -/
def replChar : Char := Char.ofNat 0xFFFD

/-- Is `b` a UTF-8 continuation byte? -/
def isContByte (b : Nat) : Bool := 0x80 ≤ b && b ≤ 0xBF

/-- Is `b2` a valid second byte for the 3-byte lead `b`? -/
def validSecond3 (b b2 : Nat) : Bool :=
  if b = 0xE0 then 0xA0 ≤ b2 && b2 ≤ 0xBF
  else if b = 0xED then 0x80 ≤ b2 && b2 ≤ 0x9F
  else isContByte b2

/-- Is `b2` a valid second byte for the 4-byte lead `b`? -/
def validSecond4 (b b2 : Nat) : Bool :=
  if b = 0xF0 then 0x90 ≤ b2 && b2 ≤ 0xBF
  else if b = 0xF4 then 0x80 ≤ b2 && b2 ≤ 0x8F
  else isContByte b2

/-- Decode a byte run as UTF-8 the way Python `bytes.decode('utf-8',
errors='replace')` does: well-formed sequences become characters, an invalid
byte contributes one replacement character and scanning resumes at the next
byte, and a truncated-at-end sequence with valid continuations contributes a
single replacement character.  `fuel` bounds the number of scanning steps;
every step consumes at least one byte, so instantiating it with the input
length (as `utf8DecodeBytes` does) never exhausts it. -/
def utf8DecodeGo : Nat → List Nat → List Char
  | 0, _ => []
  | _, [] => []
  | fuel + 1, b :: rest =>
    if b < 0x80 then Char.ofNat b :: utf8DecodeGo fuel rest
    else if b < 0xC2 then replChar :: utf8DecodeGo fuel rest
    else if b ≤ 0xDF then
      match rest with
      | [] => [replChar]
      | b2 :: rest2 =>
        if isContByte b2 then
          Char.ofNat ((b - 0xC0) * 0x40 + (b2 - 0x80)) :: utf8DecodeGo fuel rest2
        else replChar :: utf8DecodeGo fuel (b2 :: rest2)
    else if b ≤ 0xEF then
      match rest with
      | [] => [replChar]
      | [b2] =>
        if validSecond3 b b2 then [replChar]
        else replChar :: utf8DecodeGo fuel [b2]
      | b2 :: b3 :: rest3 =>
        if validSecond3 b b2 then
          if isContByte b3 then
            Char.ofNat ((b - 0xE0) * 0x1000 + (b2 - 0x80) * 0x40 + (b3 - 0x80)) ::
              utf8DecodeGo fuel rest3
          else replChar :: utf8DecodeGo fuel (b3 :: rest3)
        else replChar :: utf8DecodeGo fuel (b2 :: b3 :: rest3)
    else if b ≤ 0xF4 then
      match rest with
      | [] => [replChar]
      | [b2] =>
        if validSecond4 b b2 then [replChar]
        else replChar :: utf8DecodeGo fuel [b2]
      | [b2, b3] =>
        if validSecond4 b b2 then
          if isContByte b3 then [replChar]
          else replChar :: utf8DecodeGo fuel [b3]
        else replChar :: utf8DecodeGo fuel [b2, b3]
      | b2 :: b3 :: b4 :: rest4 =>
        if validSecond4 b b2 then
          if isContByte b3 then
            if isContByte b4 then
              Char.ofNat ((b - 0xF0) * 0x40000 + (b2 - 0x80) * 0x1000 +
                  (b3 - 0x80) * 0x40 + (b4 - 0x80)) :: utf8DecodeGo fuel rest4
            else replChar :: utf8DecodeGo fuel (b4 :: rest4)
          else replChar :: utf8DecodeGo fuel (b3 :: b4 :: rest4)
        else replChar :: utf8DecodeGo fuel (b2 :: b3 :: b4 :: rest4)
    else replChar :: utf8DecodeGo fuel rest

/-- UTF-8 decode with adequate fuel. -/
def utf8DecodeBytes (l : List Nat) : List Char :=
  utf8DecodeGo l.length l

/-- Token stream of `unquote_plus`: literal characters and percent-decoded
bytes. -/
inductive QTok where
  | lit (c : Char)
  | byt (b : Nat)
deriving DecidableEq, Repr

/-- Tokenize for `unquote_plus`: `+` becomes a space, `%hh` with two hex
digits becomes a byte, anything else stays literal (a malformed `%` is kept
as-is, as Python `unquote` does). -/
def quoteToks : List Char → List QTok
  | [] => []
  | '%' :: c1 :: c2 :: rest =>
    match hexVal c1, hexVal c2 with
    | some h1, some h2 => QTok.byt (h1 * 16 + h2) :: quoteToks rest
    | _, _ => QTok.lit '%' :: quoteToks (c1 :: c2 :: rest)
  | '+' :: rest => QTok.lit ' ' :: quoteToks rest
  | c :: rest => QTok.lit c :: quoteToks rest

/-- Rebuild the decoded text: maximal percent-decoded byte runs are decoded
as UTF-8 (Python decodes each run with `errors='replace'`), literals pass
through.  `pending` holds the current byte run in reverse. -/
def decodeToksAcc (pending : List Nat) : List QTok → List Char
  | [] => utf8DecodeBytes pending.reverse
  | QTok.byt b :: rest => decodeToksAcc (b :: pending) rest
  | QTok.lit c :: rest =>
    utf8DecodeBytes pending.reverse ++ c :: decodeToksAcc [] rest

/-- Python `urllib.parse.unquote_plus`. -/
def unquote_plus (s : String) : String :=
  ⟨decodeToksAcc [] (quoteToks s.data)⟩

/-- Split a character list at the first occurrence of `c`: returns the parts
before and after it, or `none` when `c` does not occur. -/
def breakAtChar (c : Char) : List Char → Option (List Char × List Char)
  | [] => none
  | x :: xs =>
    if x == c then some ([], xs)
    else
      match breakAtChar c xs with
      | some p => some (x :: p.1, p.2)
      | none => none

/-- Python `urllib.parse.parse_qsl(qs)` with default arguments: split on
`&`, skip empty fields, fields without `=` and fields with an empty value,
then percent-plus decode names and values. -/
def parse_qsl (qs : String) : List (String × String) :=
  (pySplitOn qs (fun c => c == '&')).filterMap fun nv =>
    if nv = "" then none
    else
      match breakAtChar '=' nv.data with
      | none => none
      | some p =>
        if p.2 = [] then none
        else some (unquote_plus ⟨p.1⟩, unquote_plus ⟨p.2⟩)

/-- The ordered list of values of the `q` query parameter, as produced by
`parse_qs(qs).get('q')`. -/
def qValues (qs : String) : List String :=
  (parse_qsl qs).filterMap fun p => if p.1 = "q" then some p.2 else none

/-- `unwrap_google_url` (ai_mode_parser.py lines 6-24): unwrap Google
redirect URLs of the forms `/url?...` and `https://www.google.com/url?...`
to the first `q` query parameter, falling back to the original href. -/
def unwrap_google_url (href : String) : String :=
  if href = "" then ""
  else if pyStartsWith href "/url?" then
    (qValues (pyDrop href 5)).headD href
  else if pyStartsWith href "https://www.google.com/url?" then
    match breakAtChar '?' href.data with
    | some p => (qValues ⟨p.2⟩).headD href
    | none => href
  else href

/-- A character allowed inside a URL scheme (`urllib.parse.scheme_chars`:
ASCII letters, digits, `+`, `-`, `.`). -/
def isSchemeChar (c : Char) : Bool :=
  c.isAlphanum || c == '+' || c == '-' || c == '.'

/-- The scheme-stripping step of `urllib.parse.urlsplit`: when the text
before the first `:` is a non-empty well-formed scheme (leading ASCII
letter, scheme characters throughout), drop `scheme:`. -/
def dropScheme (url : String) : String :=
  match breakAtChar ':' url.data with
  | none => url
  | some p =>
    match p.1 with
    | [] => url
    | c0 :: restChars =>
      if c0.isAlpha && (c0 :: restChars).all isSchemeChar then ⟨p.2⟩ else url

/-- `urlparse(url).netloc`: after stripping the scheme, the text between a
leading `//` and the next `/`, `?` or `#`; empty when the remainder does not
start with `//`. -/
def netlocOf (url : String) : String :=
  let rest := dropScheme url
  if pyStartsWith rest "//" then
    ⟨(pyDrop rest 2).data.takeWhile (fun c => !(c == '/' || c == '?' || c == '#'))⟩
  else ""

/-- `extract_domain` (ai_mode_parser.py lines 26-32): the netloc of the URL
with every occurrence of `"www."` removed (Python `str.replace` replaces all
occurrences, not only a leading one). -/
def extract_domain (url : String) : String :=
  pyReplace (netlocOf url) "www." ""

/-- Modelled from the spec (§4.4: `source: domain-of(link) with leading
"www." stripped`): strip one leading `"www."` prefix and nothing else.  Used
to compare the specified behaviour with `extract_domain`. -/
def stripLeadingWww (s : String) : String :=
  if pyStartsWith s "www." then pyDrop s 4 else s

/-! ### Reference extraction (`extract_references_from_html`) -/

/-- An emitted reference, the dict built at ai_mode_parser.py lines 387-395. -/
structure Reference where
  title : String
  link : String
  snippet : String
  source : String
  thumbnail : String
  favicon : String
  index : Nat
deriving DecidableEq, Repr

/-- A candidate anchor element as seen by the main loop of
`extract_references_from_html` (the `unique_links` entries of ai_mode_parser.py
lines 324-330, identity-deduplicated in first-seen order).  `text` is the
display text after the parent/sibling fallback of lines 334-356 (already
`clean_text`-normalized), `snippet` the output of `extract_link_snippet`
(line 385); both depend only on the surrounding document tree, which is not
modelled further. -/
structure Cand where
  href : String
  text : String
  snippet : String
deriving DecidableEq, Repr

/-- The skip test of ai_mode_parser.py lines 366-371 on the resolved
destination `actual`: no destination, fragment-only, a relative href left
unchanged by unwrapping, or still pointing at google/gstatic. -/
def candSkipUrl (c : Cand) (actual : String) : Bool :=
  actual = "" || pyStartsWith actual "#" ||
    (actual == c.href && pyStartsWith c.href "/") ||
    strContains actual "google.com" || strContains actual "gstatic.com"

/-- The reference dict appended at ai_mode_parser.py lines 387-395, with
`count` references already collected. -/
def mkRef (c : Cand) (count : Nat) : Reference :=
  { title := pyTake c.text 100
    link := unwrap_google_url c.href
    snippet := if c.snippet ≠ "" then pyTake c.snippet 250 else ""
    source := extract_domain (unwrap_google_url c.href)
    thumbnail := ""
    favicon := ""
    index := count + 1 }

/-- Main loop of `extract_references_from_html` (ai_mode_parser.py lines
332-399).  `seen` is `seen_urls`, `count` is `len(references)` so far; the
loop skips candidates with no usable text, unwraps the redirect, skips
internal/invalid/duplicate destinations, records the destination in `seen`
before the domain check, and stops once 10 references exist. -/
def refGo (seen : List String) (count : Nat) : List Cand → List Reference
  | [] => []
  | c :: rest =>
    if c.text = "" || c.text.length < 3 then refGo seen count rest
    else if candSkipUrl c (unwrap_google_url c.href) then refGo seen count rest
    else if seen.contains (unwrap_google_url c.href) then refGo seen count rest
    else if extract_domain (unwrap_google_url c.href) = "" then
      refGo (unwrap_google_url c.href :: seen) count rest
    else if count + 1 ≥ 10 then [mkRef c count]
    else mkRef c count :: refGo (unwrap_google_url c.href :: seen) (count + 1) rest

/-- `extract_references_from_html` on the ordered unique candidate list. -/
def extract_references_from_html (cands : List Cand) : List Reference :=
  refGo [] 0 cands

/-! ### Image harvesting (`extract_structured_from_html`, lines 87-125) -/

/-- An emitted inline image (ai_mode_parser.py lines 111-116); width and
height are always `None` in the source. -/
structure Image where
  title : String
  url : String
  width : Option Nat
  height : Option Nat
deriving DecidableEq, Repr

/-- An `img` element as seen by the harvesting loop: its `src` and `alt`
attributes (absent attributes are the empty string, matching
`img.get(..., '')`). -/
structure ImgTag where
  src : String
  alt : String
deriving DecidableEq, Repr

/-- Source-based skip (ai_mode_parser.py lines 94-99): no source, inline SVG
icon data, favicon paths, or a short `.svg` file. -/
def imgSrcSkip (img : ImgTag) : Bool :=
  img.src = "" || pyStartsWith img.src "data:image/svg" ||
    strContains (pyLower img.src) "favicon" || strContains img.src "/favicon" ||
    (pyEndsWith img.src ".svg" && img.src.length < 100)

/-- Alt-based skip (ai_mode_parser.py lines 102-107), applied only to a
non-empty alt: contains `icon`, contains `logo` with total length under 20,
is exactly `image`/`photo`/`picture` case-insensitively, or is shorter than
3 characters. -/
def imgAltSkip (img : ImgTag) : Bool :=
  img.alt ≠ "" &&
    (strContains (pyLower img.alt) "icon" ||
      (strContains (pyLower img.alt) "logo" && img.alt.length < 20) ||
      (pyLower img.alt = "image" || pyLower img.alt = "photo" ||
        pyLower img.alt = "picture") ||
      img.alt.length < 3)

/-- Inclusion test (ai_mode_parser.py line 110): meaningful alt text, or a
source that is not from gstatic/google. -/
def imgInclude (img : ImgTag) : Bool :=
  (img.alt ≠ "" && img.alt.length > 3) ||
    (!strContains (pyLower img.src) "gstatic" &&
      !strContains (pyLower img.src) "google")

/-- Does the harvesting loop keep this image? -/
def keepImg (img : ImgTag) : Bool :=
  !imgSrcSkip img && !imgAltSkip img && imgInclude img

/-- The dict appended for a kept image (ai_mode_parser.py lines 111-116):
`alt or "Image"` as title. -/
def mkImage (img : ImgTag) : Image :=
  { title := if img.alt = "" then "Image" else img.alt
    url := img.src
    width := none
    height := none }

/-- The `inline_images` field of `extract_structured_from_html`: kept images
in document order, capped at 5 (`inline_images[:5]`, line 125). -/
def inline_images_of (imgs : List ImgTag) : List Image :=
  ((imgs.filter keepImg).map mkImage).take 5

/-! ### Polling protocol (`perform_search_and_extract`) -/

/-- The structured result returned by `extract_structured_from_html`
(ai_mode_parser.py lines 124-128). -/
structure ExtractionResult where
  inline_images : List Image
  text_blocks : List Block
  references : List Reference
deriving DecidableEq, Repr

/-- The protocol-level failure: the `TimeoutError` of
scrape_ai_mode.py line 314. -/
inductive ProtocolError where
  | timeout
deriving DecidableEq, Repr

/-- Decidable equality for `Except`, used to evaluate protocol outcomes on
concrete inputs. -/
instance exceptDecEq {ε α : Type} [DecidableEq ε] [DecidableEq α] :
    DecidableEq (Except ε α) := fun a b =>
  match a, b with
  | Except.ok x, Except.ok y =>
    if h : x = y then isTrue (by rw [h]) else isFalse (by simp [h])
  | Except.error x, Except.error y =>
    if h : x = y then isTrue (by rw [h]) else isFalse (by simp [h])
  | Except.ok _, Except.error _ => isFalse (by simp)
  | Except.error _, Except.ok _ => isFalse (by simp)

/-- One poll tick's environment: the outcome of running
`extract_structured_from_html` on that tick's `driver.page_source` — either
a parse exception or a result. -/
abbrev TickOutcome := Except Unit ExtractionResult

/-- Did this tick's parse succeed with at least one reference
(scrape_ai_mode.py line 289)? -/
def tickHasRefs (t : TickOutcome) : Bool :=
  match t with
  | Except.ok r => !r.references.isEmpty
  | Except.error _ => false

/-- The final read+parse after the loop (scrape_ai_mode.py lines 303-314):
return the partial result when it has any text blocks, otherwise (or when
the final parse itself throws) raise the timeout error. -/
def finalStep (final : TickOutcome) : Except ProtocolError ExtractionResult :=
  match final with
  | Except.ok r =>
    if r.text_blocks.isEmpty then Except.error ProtocolError.timeout
    else Except.ok r
  | Except.error _ => Except.error ProtocolError.timeout

/-- The polling loop of `perform_search_and_extract` (scrape_ai_mode.py
lines 278-314) over the sequence of per-tick parse outcomes (one per second,
`ticks.length = max_wait_seconds`) and the final read's outcome: return the
first tick result carrying a reference, swallow per-tick parse errors, and
fall through to the final read when the ticks are exhausted. -/
def pollRun : List TickOutcome → TickOutcome → Except ProtocolError ExtractionResult
  | [], final => finalStep final
  | t :: ts, final =>
    match t with
    | Except.ok r => if r.references.isEmpty then pollRun ts final else Except.ok r
    | Except.error _ => pollRun ts final

/-! ### Job router (`JobRouter.enqueue`, queue.py lines 72-95) -/

/-- Worker lifecycle states (queue.py `Worker.state`). -/
inductive WState where
  | ready
  | busy
  | stopped
deriving DecidableEq, Repr

namespace JobRouter

/-- The scan `for i in range(len(self.workers))` of queue.py lines 79-85:
starting at offset `i` with `fuel` offsets left, return the first cyclic
index holding a `ready` worker. -/
def findReadyGo (states : List WState) (next : Nat) : Nat → Nat → Option Nat
  | _, 0 => none
  | i, fuel + 1 =>
    if states.getD ((next + i) % states.length) WState.busy = WState.ready then
      some ((next + i) % states.length)
    else findReadyGo states next (i + 1) fuel

/-- First `ready` worker in cyclic order from `next`, if any. -/
def findReadyIdx (states : List WState) (next : Nat) : Option Nat :=
  findReadyGo states next 0 states.length

/-- The selection step of `JobRouter.enqueue` (queue.py lines 77-90): pick
the first `ready` worker from the rotation cursor and advance the cursor
just past it; with no `ready` worker, pick the worker at the cursor and
advance by one.  Returns `(picked index, new cursor)`. -/
def enqueueSelect (states : List WState) (next : Nat) : Nat × Nat :=
  match findReadyIdx states next with
  | some idx => (idx, (idx + 1) % states.length)
  | none => (next, (next + 1) % states.length)

/-- Indices picked by `k` successive `enqueue` calls when no worker changes
state in between (submissions with no intervening completions): the worker
states stay fixed and only the cursor advances. -/
def submitPicks (states : List WState) : Nat → Nat → List Nat
  | _, 0 => []
  | c, k + 1 =>
    let p := enqueueSelect states c
    p.1 :: submitPicks states p.2 k

end JobRouter

/-- A block sequence already in deduplicated form with respect to the set
`seen` of previously recorded snippets: every paragraph fails the duplicate
test against all earlier recorded snippets. -/
inductive Clean : List String → List Block → Prop where
  | nil (seen : List String) : Clean seen []
  | para (seen : List String) (s : String) (bs : List Block)
      (h : seen.any (fun t => is_duplicate_of s t) = false)
      (hres : Clean (s :: seen) bs) : Clean seen (Block.paragraph s :: bs)
  | list (seen : List String) (items : List String) (bs : List Block)
      (hres : Clean seen bs) : Clean seen (Block.list items :: bs)

end Scrapinghorse

namespace Scrapinghorse

/-! ## Theorems -/

/-- `dedupGo` output, relative to its starting `seen`, is deduplicated. -/
theorem dedupGo_clean (bs : List Block) :
    ∀ seen : List String, Clean seen (dedupGo seen bs) := by
  induction bs with
  | nil => intro seen; exact Clean.nil seen
  | cons b rest ih =>
    intro seen
    cases b with
    | paragraph s =>
      by_cases h : seen.any (fun t => is_duplicate_of s t) = true
      · simp only [dedupGo, h, if_true]
        exact ih seen
      · have h' : seen.any (fun t => is_duplicate_of s t) = false :=
          Bool.eq_false_iff.mpr h
        simp only [dedupGo, h', Bool.false_eq_true, if_false]
        exact Clean.para seen s _ h' (ih (s :: seen))
    | list items =>
      simp only [dedupGo]
      exact Clean.list seen items _ (ih seen)

/-- On an already-deduplicated sequence, `dedupGo` is the identity. -/
theorem dedupGo_of_clean {seen : List String} {bs : List Block}
    (h : Clean seen bs) : dedupGo seen bs = bs := by
  induction h with
  | nil seen => rfl
  | para seen s bs hdup hres ih =>
    simp only [dedupGo, hdup, Bool.false_eq_true, if_false, ih]
  | list seen items bs hres ih =>
    simp only [dedupGo, ih]

/-- Deduplicated-ness is preserved by truncation. -/
theorem Clean.take {seen : List String} {bs : List Block}
    (h : Clean seen bs) : ∀ n : Nat, Clean seen (bs.take n) := by
  induction h with
  | nil seen => intro n; simpa using Clean.nil seen
  | para seen s bs hdup hres ih =>
    intro n
    cases n with
    | zero => exact Clean.nil seen
    | succ m => exact Clean.para seen s _ hdup (ih m)
  | list seen items bs hres ih =>
    intro n
    cases n with
    | zero => exact Clean.nil seen
    | succ m => exact Clean.list seen items _ (ih m)

/-- C6: Block deduplication (`deduplicate_blocks`) is idempotent: applying it
twice to any block sequence yields exactly the result of applying it once. -/
theorem deduplicate_blocks_idempotent (blocks : List Block) :
    deduplicate_blocks (deduplicate_blocks blocks) = deduplicate_blocks blocks := by
  unfold deduplicate_blocks
  rw [dedupGo_of_clean ((dedupGo_clean blocks []).take 20), List.take_take]
  simp

/-- Computation rule for `Block.isParagraph` on a paragraph. -/
theorem isParagraph_paragraph (s : String) :
    (Block.paragraph s).isParagraph = true := rfl

/-- Computation rule for `Block.isParagraph` on a list block. -/
theorem isParagraph_list (items : List String) :
    (Block.list items).isParagraph = false := rfl

/-- `trimLeadingParagraphs` keeps every non-paragraph block. -/
theorem trim_filter_nonpara (bs : List Block) :
    ∀ removed : Nat,
      (trimLeadingParagraphs removed bs).filter (fun b => !b.isParagraph) =
        bs.filter (fun b => !b.isParagraph) := by
  induction bs with
  | nil => intro removed; rfl
  | cons b rest ih =>
    intro removed
    cases b with
    | paragraph s =>
      by_cases h : removed < 3
      · simp only [trimLeadingParagraphs, h, if_true, ih, List.filter_cons,
          isParagraph_paragraph, Bool.not_true, Bool.false_eq_true, if_false]
      · simp only [trimLeadingParagraphs, h, if_false, List.filter_cons,
          isParagraph_paragraph, Bool.not_true, Bool.false_eq_true, if_false, ih]
    | list items =>
      simp only [trimLeadingParagraphs, List.filter_cons, isParagraph_list,
        Bool.not_false, if_true, ih]

/-- `trimLeadingParagraphs removed` drops exactly the first `3 - removed`
paragraph blocks. -/
theorem trim_filter_para (bs : List Block) :
    ∀ removed : Nat,
      (trimLeadingParagraphs removed bs).filter Block.isParagraph =
        (bs.filter Block.isParagraph).drop (3 - removed) := by
  induction bs with
  | nil => intro removed; simp [trimLeadingParagraphs]
  | cons b rest ih =>
    intro removed
    cases b with
    | paragraph s =>
      by_cases h : removed < 3
      · have h3 : 3 - removed = (3 - (removed + 1)) + 1 := by omega
        simp only [trimLeadingParagraphs, h, if_true, ih, List.filter_cons,
          isParagraph_paragraph, h3, List.drop_succ_cons]
      · have h0 : 3 - removed = 0 := by omega
        simp only [trimLeadingParagraphs, h, if_false, List.filter_cons,
          isParagraph_paragraph, if_true, ih, h0, List.drop_zero]
    | list items =>
      simp only [trimLeadingParagraphs, List.filter_cons, isParagraph_list,
        Bool.false_eq_true, if_false, ih]

/-- The trim output is a subsequence of its input: surviving blocks keep
their relative positions. -/
theorem trim_sublist (bs : List Block) :
    ∀ removed : Nat, (trimLeadingParagraphs removed bs).Sublist bs := by
  induction bs with
  | nil => intro removed; simp [trimLeadingParagraphs]
  | cons b rest ih =>
    intro removed
    cases b with
    | paragraph s =>
      by_cases h : removed < 3
      · simp only [trimLeadingParagraphs, h, if_true]
        exact (ih (removed + 1)).cons _
      · simp only [trimLeadingParagraphs, h, if_false]
        exact (ih removed).cons₂ _
    | list items =>
      simp only [trimLeadingParagraphs]
      exact (ih removed).cons₂ _

/-- C7: after deduplication, `parse_text_blocks` unconditionally discards the
first 3 surviving paragraph blocks and keeps every list block in place; a
document yielding six mutually non-duplicate content paragraphs and no lists
returns exactly the last 3 of them. -/
theorem parse_text_blocks_trims_three :
    (∀ blocks : List Block,
      (trimLeadingParagraphs 0 blocks).filter Block.isParagraph =
          (blocks.filter Block.isParagraph).drop 3 ∧
      (trimLeadingParagraphs 0 blocks).filter (fun b => !b.isParagraph) =
          blocks.filter (fun b => !b.isParagraph) ∧
      (trimLeadingParagraphs 0 blocks).Sublist blocks) ∧
    parse_text_blocks_post
        [Block.paragraph "alpha bravo charlie delta echo",
         Block.paragraph "foxtrot golf hotel india juliet",
         Block.paragraph "kilo lima mike november oscar",
         Block.paragraph "papa quebec romeo sierra tango",
         Block.paragraph "uniform victor whiskey xray yz",
         Block.paragraph "zulu alfa beta gamma delta eps"] =
      [Block.paragraph "papa quebec romeo sierra tango",
       Block.paragraph "uniform victor whiskey xray yz",
       Block.paragraph "zulu alfa beta gamma delta eps"] := by
  refine ⟨fun blocks => ⟨?_, ?_, ?_⟩, by decide⟩
  · exact trim_filter_para blocks 0
  · exact trim_filter_nonpara blocks 0
  · exact trim_sublist blocks 0

/-- When no poll tick carries a reference, the loop falls through to the
final read+parse. -/
theorem pollRun_no_refs (ticks : List TickOutcome) (final : TickOutcome)
    (h : ∀ t ∈ ticks, tickHasRefs t = false) :
    pollRun ticks final = finalStep final := by
  induction ticks with
  | nil => rfl
  | cons t ts ih =>
    have ht := h t (List.mem_cons_self t ts)
    have hts : ∀ x ∈ ts, tickHasRefs x = false := fun x hx =>
      h x (List.mem_cons_of_mem t hx)
    cases t with
    | ok r =>
      have hre : r.references.isEmpty = true := by
        simpa [tickHasRefs] using ht
      simp only [pollRun, hre, if_true]
      exact ih hts
    | error e => simpa only [pollRun] using ih hts

/-- C1 (amended): when no poll tick's parse carries a reference, the protocol
performs the final read+parse; if that parse yields at least one text block
the partial result is returned successfully, carrying exactly the final
parse's content (so zero references whenever the final parse yields none);
if it yields no text blocks, or the final parse itself fails, a timeout
error is raised. -/
theorem pollRun_partial_on_timeout (ticks : List TickOutcome) (final : TickOutcome)
    (h : ∀ t ∈ ticks, tickHasRefs t = false) :
    pollRun ticks final = finalStep final ∧
    (∀ r : ExtractionResult, final = Except.ok r → r.text_blocks ≠ [] →
      pollRun ticks final = Except.ok r) ∧
    (∀ r : ExtractionResult, final = Except.ok r → r.text_blocks = [] →
      pollRun ticks final = Except.error ProtocolError.timeout) ∧
    (∀ e : Unit, final = Except.error e →
      pollRun ticks final = Except.error ProtocolError.timeout) := by
  have hbase := pollRun_no_refs ticks final h
  refine ⟨hbase, ?_, ?_, ?_⟩
  · intro r hf hne
    rw [hbase, hf]
    cases htb : r.text_blocks with
    | nil => exact absurd htb hne
    | cons a as => simp [finalStep, htb]
  · intro r hf he
    rw [hbase, hf]
    simp [finalStep, he]
  · intro e hf
    rw [hbase, hf]
    rfl

/-- Witness for C1: two reference-free ticks, a final parse with one text
block and no references; the partial result is returned. -/
theorem pollRun_partial_on_timeout_witness :
    pollRun [Except.ok ⟨[], [], []⟩, Except.error ()]
        (Except.ok ⟨[], [Block.paragraph "partial prose"], []⟩) =
      Except.ok ⟨[], [Block.paragraph "partial prose"], []⟩ :=
  (pollRun_partial_on_timeout _ _ (by decide)).2.1 _ rfl (by decide)

/-- Counterexample to C1 as stated: no poll tick yields a reference and the
final parse yields a text block, yet the successfully returned partial
result has one reference, not zero — the final read is a fresh parse and the
code never clears or checks its references. -/
theorem pollRun_partial_zero_refs_ce :
    (∀ t ∈ ([Except.ok ⟨[], [], []⟩] : List TickOutcome), tickHasRefs t = false) ∧
    pollRun [Except.ok ⟨[], [], []⟩]
        (Except.ok ⟨[], [Block.paragraph "late prose"],
          [⟨"Late", "https://late.example/", "", "late.example", "", "", 1⟩]⟩) =
      Except.ok ⟨[], [Block.paragraph "late prose"],
          [⟨"Late", "https://late.example/", "", "late.example", "", "", 1⟩]⟩ ∧
    ([(⟨"Late", "https://late.example/", "", "late.example", "", "", 1⟩ : Reference)] ≠
      ([] : List Reference)) := by
  decide

/-- C2 (amended): whenever some poll tick's parse yields a reference, the
protocol returns that first reference-bearing tick's result immediately at
that tick, never at a later one. -/
theorem pollRun_first_ref_tick (pre : List TickOutcome) (r : ExtractionResult)
    (post : List TickOutcome) (final : TickOutcome)
    (hpre : ∀ t ∈ pre, tickHasRefs t = false) (hr : r.references ≠ []) :
    pollRun (pre ++ Except.ok r :: post) final = Except.ok r := by
  induction pre with
  | nil =>
    cases hrr : r.references with
    | nil => exact absurd hrr hr
    | cons a as => simp [pollRun, hrr]
  | cons t ts ih =>
    have ht := hpre t (List.mem_cons_self t ts)
    have hts : ∀ x ∈ ts, tickHasRefs x = false := fun x hx =>
      hpre x (List.mem_cons_of_mem t hx)
    cases t with
    | ok q =>
      have hqe : q.references.isEmpty = true := by
        simpa [tickHasRefs] using ht
      simp only [List.cons_append, pollRun, hqe, if_true]
      exact ih hts
    | error e => simpa only [List.cons_append, pollRun] using ih hts

/-- Witness for C2: an error tick followed by a reference-bearing tick; the
protocol returns the reference-bearing tick's result. -/
theorem pollRun_first_ref_tick_witness :
    pollRun [Except.error (),
        Except.ok ⟨[], [], [⟨"W", "https://w.example/", "", "w.example", "", "", 1⟩]⟩,
        Except.ok ⟨[], [], []⟩] (Except.error ()) =
      Except.ok ⟨[], [], [⟨"W", "https://w.example/", "", "w.example", "", "", 1⟩]⟩ :=
  pollRun_first_ref_tick [Except.error ()] _ [Except.ok ⟨[], [], []⟩] _
    (by decide) (by decide)

/-- Counterexample to C2 as stated: a successful run whose returned result
has a non-empty references list, although no poll tick's parse ever carried
a reference — the references arrived only in the final timeout read, so the
return did not happen at any reference-bearing poll tick. -/
theorem pollRun_refs_from_final_ce :
    (∀ t ∈ ([Except.ok ⟨[], [], []⟩, Except.error ()] : List TickOutcome),
      tickHasRefs t = false) ∧
    pollRun [Except.ok ⟨[], [], []⟩, Except.error ()]
        (Except.ok ⟨[], [Block.paragraph "prose from the final read"],
          [⟨"F", "https://f.example/", "", "f.example", "", "", 1⟩]⟩) =
      Except.ok ⟨[], [Block.paragraph "prose from the final read"],
          [⟨"F", "https://f.example/", "", "f.example", "", "", 1⟩]⟩ ∧
    ([(⟨"F", "https://f.example/", "", "f.example", "", "", 1⟩ : Reference)] ≠
      ([] : List Reference)) := by
  decide

/-- C8: a parse failure on any non-final poll tick is never fatal: the
protocol's outcome on any tick sequence containing an error tick equals its
outcome on the same sequence with that tick removed, for every final read. -/
theorem pollRun_parse_error_skipped (pre post : List TickOutcome)
    (final : TickOutcome) (e : Unit) :
    pollRun (pre ++ Except.error e :: post) final = pollRun (pre ++ post) final := by
  induction pre with
  | nil => rfl
  | cons t ts ih =>
    cases t with
    | ok r =>
      simp only [List.cons_append, pollRun]
      by_cases h : r.references.isEmpty
      · simp [h, ih]
      · simp [h]
    | error e2 => simpa only [List.cons_append, pollRun] using ih

/-- With no `ready` worker anywhere, the scan finds nothing. -/
theorem findReadyGo_none (states : List WState) (next : Nat)
    (h : ∀ w ∈ states, w ≠ WState.ready) :
    ∀ fuel i, JobRouter.findReadyGo states next i fuel = none := by
  have hgetD : ∀ idx, states.getD idx WState.busy ≠ WState.ready := by
    intro idx
    by_cases hlt : idx < states.length
    · rw [List.getD_eq_getElem _ _ hlt]
      exact h _ (List.getElem_mem hlt)
    · rw [List.getD_eq_default _ _ (Nat.le_of_not_lt hlt)]
      decide
  intro fuel
  induction fuel with
  | zero => intro i; rfl
  | succ f ih =>
    intro i
    simp only [JobRouter.findReadyGo]
    rw [if_neg (hgetD _)]
    exact ih (i + 1)

/-- The scan returns the first cyclic offset holding a `ready` worker. -/
theorem findReadyGo_some (states : List WState) (next : Nat) :
    ∀ t i fuel : Nat, t < fuel →
      states.getD ((next + i + t) % states.length) WState.busy = WState.ready →
      (∀ j < t,
        states.getD ((next + i + j) % states.length) WState.busy ≠ WState.ready) →
      JobRouter.findReadyGo states next i fuel =
        some ((next + i + t) % states.length) := by
  intro t
  induction t with
  | zero =>
    intro i fuel hf hready _
    cases fuel with
    | zero => exact absurd hf (by omega)
    | succ f =>
      rw [Nat.add_zero] at hready
      simp only [JobRouter.findReadyGo]
      rw [if_pos hready, Nat.add_zero]
  | succ s ihs =>
    intro i fuel hf hready hbefore
    cases fuel with
    | zero => exact absurd hf (by omega)
    | succ f =>
      have h0 : states.getD ((next + i) % states.length) WState.busy ≠ WState.ready := by
        have := hbefore 0 (Nat.succ_pos s)
        rwa [Nat.add_zero] at this
      simp only [JobRouter.findReadyGo]
      rw [if_neg h0]
      have harith : next + (i + 1) + s = next + i + (s + 1) := by omega
      refine (ihs (i + 1) f (by omega) ?_ ?_).trans ?_
      · rw [harith]; exact hready
      · intro j hj
        have harj : next + (i + 1) + j = next + i + (j + 1) := by omega
        rw [harj]
        exact hbefore (j + 1) (by omega)
      · rw [harith]

/-- `enqueueSelect` picks the first `ready` worker in cyclic order from the
cursor, advancing the cursor just past it. -/
theorem enqueueSelect_first_ready (states : List WState) (c t : Nat)
    (hlen : t < states.length)
    (hready : states.getD ((c + t) % states.length) WState.busy = WState.ready)
    (hbefore : ∀ j < t,
      states.getD ((c + j) % states.length) WState.busy ≠ WState.ready) :
    JobRouter.enqueueSelect states c =
      ((c + t) % states.length, ((c + t) % states.length + 1) % states.length) := by
  unfold JobRouter.enqueueSelect JobRouter.findReadyIdx
  rw [findReadyGo_some states c t 0 states.length hlen
    (by rw [Nat.add_zero c]; exact hready)
    (by intro j hj; rw [Nat.add_zero c]; exact hbefore j hj)]
  rw [Nat.add_zero c]

/-- With no `ready` worker, `enqueueSelect` falls back to the cursor itself
and advances it by one. -/
theorem enqueueSelect_fallback (states : List WState) (c : Nat)
    (h : ∀ w ∈ states, w ≠ WState.ready) :
    JobRouter.enqueueSelect states c = (c, (c + 1) % states.length) := by
  unfold JobRouter.enqueueSelect JobRouter.findReadyIdx
  rw [findReadyGo_none states c h states.length 0]

/-- With every worker `ready`, `enqueueSelect` picks the cursor position
(mod the pool size). -/
theorem enqueueSelect_all_ready (N c : Nat) (hN : 0 < N) :
    JobRouter.enqueueSelect (List.replicate N WState.ready) c =
      (c % N, (c % N + 1) % N) := by
  have hlen : (List.replicate N WState.ready).length = N := by simp
  have hready :
      (List.replicate N WState.ready).getD (c % N) WState.busy = WState.ready := by
    have hc : c % N < (List.replicate N WState.ready).length := by
      rw [hlen]; exact Nat.mod_lt _ hN
    rw [List.getD_eq_getElem _ _ hc, List.getElem_replicate]
  have h := enqueueSelect_first_ready (List.replicate N WState.ready) c 0
    (by rw [hlen]; exact hN)
    (by rw [Nat.add_zero, hlen]; exact hready)
    (by intro j hj; omega)
  rw [h, Nat.add_zero, hlen]

/-- With every worker `ready`, `k` successive submissions pick the cyclic
indices starting at the cursor. -/
theorem submitPicks_all_ready (N : Nat) (hN : 0 < N) :
    ∀ k c : Nat, JobRouter.submitPicks (List.replicate N WState.ready) c k =
      (List.range k).map (fun j => (c + j) % N) := by
  intro k
  induction k with
  | zero => intro c; rfl
  | succ m ih =>
    intro c
    have key : ∀ j : Nat, (c % N + 1) % N + j = ((c % N + 1) % N + j) := fun _ => rfl
    have harg : (fun j => ((c % N + 1) % N + j) % N) = (fun j => (c + (j + 1)) % N) := by
      funext j
      rw [Nat.mod_add_mod, Nat.add_assoc, Nat.mod_add_mod, Nat.add_comm 1 j]
    simp only [JobRouter.submitPicks, enqueueSelect_all_ready N c hN]
    rw [ih ((c % N + 1) % N), List.range_succ_eq_map, List.map_cons, List.map_map]
    refine congrArg₂ List.cons ?_ ?_
    · rw [Nat.add_zero]
    · rw [harg]
      rfl

/-- Cyclic picks from a cursor are pairwise distinct while fewer than the
pool size have been made. -/
theorem cyclic_picks_nodup (N c k : Nat) (hk : k ≤ N) :
    ((List.range k).map (fun j => (c + j) % N)).Nodup := by
  rcases Nat.eq_zero_or_pos N with h0 | hN
  · have : k = 0 := by omega
    subst this
    simp
  · refine List.Nodup.map_on ?_ (List.nodup_range k)
    intro x hx y hy hxy
    rw [List.mem_range] at hx hy
    have hmod : x % N = y % N := Nat.ModEq.add_left_cancel' c hxy
    rwa [Nat.mod_eq_of_lt (lt_of_lt_of_le hx hk),
      Nat.mod_eq_of_lt (lt_of_lt_of_le hy hk)] at hmod

/-- With worker 0 `busy` and all others `ready`, the pick is the lowest
`ready` index at or after the cursor (`1` when the cursor is `0`, the cursor
itself otherwise), never worker 0. -/
theorem enqueueSelect_skips_busy (states : List WState) (c : Nat)
    (h2 : 2 ≤ states.length) (hc : c < states.length)
    (h0 : states.getD 0 WState.busy = WState.busy)
    (hr : ∀ i, 0 < i → i < states.length →
      states.getD i WState.busy = WState.ready) :
    (JobRouter.enqueueSelect states c).1 = max 1 c ∧
      (JobRouter.enqueueSelect states c).1 ≠ 0 := by
  by_cases hc0 : c = 0
  · subst hc0
    have h1len : (1 : Nat) < states.length := by omega
    have h1mod : (0 + 1) % states.length = 1 := by
      rw [Nat.zero_add, Nat.mod_eq_of_lt h1len]
    have h := enqueueSelect_first_ready states 0 1 h1len
      (by rw [h1mod]; exact hr 1 (by omega) h1len)
      (by
        intro j hj
        have hj0 : j = 0 := by omega
        subst hj0
        have hz : (0 + 0) % states.length = 0 := by simp
        rw [hz, h0]
        decide)
    rw [h, h1mod]
    exact ⟨rfl, Nat.one_ne_zero⟩
  · have hcpos : 0 < c := Nat.pos_of_ne_zero hc0
    have hcmod : (c + 0) % states.length = c := by
      rw [Nat.add_zero, Nat.mod_eq_of_lt hc]
    have h := enqueueSelect_first_ready states c 0 (by omega)
      (by rw [hcmod]; exact hr c hcpos hc)
      (by intro j hj; omega)
    rw [h, hcmod]
    exact ⟨(Nat.max_eq_right hcpos).symm, by omega⟩

/-- C3: job selection is idle-preferring round robin.  Conjunction of: the
scan picks the first `ready` worker in cyclic order from the cursor and
advances the cursor just past it; with no `ready` worker it picks the worker
at the cursor and advances by one; with all `N` workers `ready`, up to `N`
submissions with no intervening completions go to distinct workers in cyclic
index order from the cursor; and with worker 0 `busy` and workers 1..N-1
`ready`, the pick is the lowest `ready` index at or after the cursor, never
worker 0. -/
theorem jobrouter_round_robin :
    (∀ (states : List WState) (c t : Nat), t < states.length →
      states.getD ((c + t) % states.length) WState.busy = WState.ready →
      (∀ j < t,
        states.getD ((c + j) % states.length) WState.busy ≠ WState.ready) →
      JobRouter.enqueueSelect states c =
        ((c + t) % states.length, ((c + t) % states.length + 1) % states.length)) ∧
    (∀ (states : List WState) (c : Nat), (∀ w ∈ states, w ≠ WState.ready) →
      JobRouter.enqueueSelect states c = (c, (c + 1) % states.length)) ∧
    (∀ N c k : Nat, 0 < N → k ≤ N →
      JobRouter.submitPicks (List.replicate N WState.ready) c k =
        (List.range k).map (fun j => (c + j) % N) ∧
      (JobRouter.submitPicks (List.replicate N WState.ready) c k).Nodup) ∧
    (∀ (states : List WState) (c : Nat), 2 ≤ states.length → c < states.length →
      states.getD 0 WState.busy = WState.busy →
      (∀ i, 0 < i → i < states.length →
        states.getD i WState.busy = WState.ready) →
      (JobRouter.enqueueSelect states c).1 = max 1 c ∧
        (JobRouter.enqueueSelect states c).1 ≠ 0) := by
  refine ⟨enqueueSelect_first_ready, enqueueSelect_fallback, ?_,
    enqueueSelect_skips_busy⟩
  intro N c k hN hk
  have hmap := submitPicks_all_ready N hN k c
  exact ⟨hmap, hmap ▸ cyclic_picks_nodup N c k hk⟩

/-- Witness for C3: three ready workers with cursor 1 get three submissions
in order 1, 2, 0; with worker 0 busy and cursor 0, the pick is worker 1. -/
theorem jobrouter_round_robin_witness :
    JobRouter.submitPicks (List.replicate 3 WState.ready) 1 3 = [1, 2, 0] ∧
    (JobRouter.enqueueSelect [WState.busy, WState.ready, WState.ready] 0).1 = 1 := by
  constructor
  · have h := (jobrouter_round_robin.2.2.1 3 1 3 (by omega) (by omega)).1
    rw [h]
    decide
  · have h := (jobrouter_round_robin.2.2.2
      [WState.busy, WState.ready, WState.ready] 0 (by decide) (by decide) (by decide)
      (by
        intro i h1 h2
        have : i = 1 ∨ i = 2 := by
          simp only [List.length_cons, List.length_nil] at h2
          omega
        rcases this with h | h <;> subst h <;> rfl)).1
    rw [h]
    decide

/-- The reference loop emits at most `10 - count` further references. -/
theorem refGo_length (cands : List Cand) :
    ∀ (seen : List String) (count : Nat), count < 10 →
      (refGo seen count cands).length ≤ 10 - count := by
  induction cands with
  | nil => intro seen count h; simp [refGo]
  | cons c rest ih =>
    intro seen count h
    simp only [refGo]
    split
    · exact ih seen count h
    · split
      · exact ih seen count h
      · split
        · exact ih seen count h
        · split
          · exact ih _ count h
          · split
            · simp only [List.length_cons, List.length_nil]
              omega
            · rename_i hstop
              simp only [List.length_cons]
              have := ih (unwrap_google_url c.href :: seen) (count + 1) (by omega)
              omega

/-- Every emitted reference's destination is new: absent from the incoming
`seen` set, and pairwise distinct across the output. -/
theorem refGo_links_fresh (cands : List Cand) :
    ∀ (seen : List String) (count : Nat),
      ((refGo seen count cands).map Reference.link).Nodup ∧
      ∀ r ∈ refGo seen count cands, r.link ∉ seen := by
  induction cands with
  | nil => intro seen count; simp [refGo]
  | cons c rest ih =>
    intro seen count
    simp only [refGo]
    split
    · exact ih seen count
    · split
      · exact ih seen count
      · split
        · exact ih seen count
        · rename_i hcontains
          have hmem : unwrap_google_url c.href ∉ seen := by
            intro hmemv
            exact hcontains (List.elem_iff.mpr hmemv)
          split
          · refine ⟨(ih _ count).1, fun r hr => ?_⟩
            have := (ih (unwrap_google_url c.href :: seen) count).2 r hr
            intro hrs
            exact this (List.mem_cons_of_mem _ hrs)
          · split
            · simp [mkRef, hmem]
            · refine ⟨?_, ?_⟩
              · rw [List.map_cons, List.nodup_cons]
                refine ⟨?_, (ih _ (count + 1)).1⟩
                intro hlink
                rw [List.mem_map] at hlink
                obtain ⟨r, hr, hrl⟩ := hlink
                have := (ih (unwrap_google_url c.href :: seen) (count + 1)).2 r hr
                exact this (hrl ▸ List.mem_cons_self _ _)
              · intro r hr
                rcases List.mem_cons.mp hr with hhd | htl
                · rw [hhd]
                  exact hmem
                · have := (ih (unwrap_google_url c.href :: seen) (count + 1)).2 r htl
                  intro hrs
                  exact this (List.mem_cons_of_mem _ hrs)

/-- The emitted indices are consecutive, starting at `count + 1`. -/
theorem refGo_index (cands : List Cand) :
    ∀ (seen : List String) (count : Nat),
      (refGo seen count cands).map Reference.index =
        List.range' (count + 1) (refGo seen count cands).length := by
  induction cands with
  | nil => intro seen count; simp [refGo]
  | cons c rest ih =>
    intro seen count
    simp only [refGo]
    split
    · exact ih seen count
    · split
      · exact ih seen count
      · split
        · exact ih seen count
        · split
          · exact ih _ count
          · split
            · simp [mkRef]
            · simp only [List.map_cons, List.length_cons, List.range'_succ]
              exact congrArg₂ List.cons rfl (ih _ (count + 1))

/-- Every emitted reference's `source` is `extract_domain` of its `link`. -/
theorem refGo_source (cands : List Cand) :
    ∀ (seen : List String) (count : Nat),
      ∀ r ∈ refGo seen count cands, r.source = extract_domain r.link := by
  induction cands with
  | nil => intro seen count r hr; simp [refGo] at hr
  | cons c rest ih =>
    intro seen count r hr
    simp only [refGo] at hr
    revert hr
    split
    · exact fun hr => ih seen count r hr
    · split
      · exact fun hr => ih seen count r hr
      · split
        · exact fun hr => ih seen count r hr
        · split
          · exact fun hr => ih _ count r hr
          · split
            · intro hr
              rcases List.mem_singleton.mp hr with rfl
              rfl
            · intro hr
              rcases List.mem_cons.mp hr with rfl | htl
              · rfl
              · exact ih _ (count + 1) r htl

/-- C4: the reference list is capped at 10, its resolved destinations are
pairwise distinct, and the `index` fields count the 1-based positions; a
document with 15 distinct valid external links yields exactly 10 references
indexed 1..10 in encounter order, and two redirect-wrapped links resolving
to the same destination yield one reference at the first link's position. -/
theorem references_capped_unique_indexed :
    (∀ cands : List Cand, (extract_references_from_html cands).length ≤ 10) ∧
    (∀ cands : List Cand,
      ((extract_references_from_html cands).map Reference.link).Nodup) ∧
    (∀ cands : List Cand,
      (extract_references_from_html cands).map Reference.index =
        List.range' 1 (extract_references_from_html cands).length) ∧
    ((extract_references_from_html ((List.range 15).map fun k =>
        { href := "https://site" ++ toString k ++ ".com/page",
          text := "Title here", snippet := "" })).map
          (fun r => (r.link, r.index)) =
      [("https://site0.com/page", 1), ("https://site1.com/page", 2),
       ("https://site2.com/page", 3), ("https://site3.com/page", 4),
       ("https://site4.com/page", 5), ("https://site5.com/page", 6),
       ("https://site6.com/page", 7), ("https://site7.com/page", 8),
       ("https://site8.com/page", 9), ("https://site9.com/page", 10)]) ∧
    (extract_references_from_html
        [⟨"/url?q=https%3A%2F%2Fdest.com%2Fa&sa=U", "First link", ""⟩,
         ⟨"/url?q=https%3A%2F%2Fdest.com%2Fa&sa=X", "Second link", ""⟩] =
      [⟨"First link", "https://dest.com/a", "", "dest.com", "", "", 1⟩]) := by
  refine ⟨fun cands => ?_, fun cands => (refGo_links_fresh cands [] 0).1,
    fun cands => refGo_index cands [] 0, by decide, by decide⟩
  have := refGo_length cands [] 0 (by omega)
  simpa [extract_references_from_html] using this

/-- C9 (amended): every emitted reference's `source` equals the domain of
its resolved destination with every occurrence of `"www."` removed — a
leading `"www."` is stripped, but `"www."` elsewhere in the domain is
removed as well, not preserved. -/
theorem reference_source_strips_all_www :
    (∀ (cands : List Cand) (r : Reference), r ∈ extract_references_from_html cands →
      r.source = extract_domain r.link) ∧
    extract_domain "https://www.example.com/a" = "example.com" ∧
    netlocOf "https://en.www.example.com/x" = "en.www.example.com" ∧
    extract_domain "https://en.www.example.com/x" = "en.example.com" := by
  exact ⟨fun cands r hr => refGo_source cands [] 0 r hr, by decide, by decide, by decide⟩

/-- Witness for C9: the reference emitted for `https://en.www.example.com/x`
carries `extract_domain` of its link as `source`. -/
theorem reference_source_strips_all_www_witness :
    (⟨"Example title", "https://en.www.example.com/x", "", "en.example.com",
        "", "", 1⟩ : Reference).source =
      extract_domain
        (⟨"Example title", "https://en.www.example.com/x", "", "en.example.com",
          "", "", 1⟩ : Reference).link :=
  reference_source_strips_all_www.1
    [⟨"https://en.www.example.com/x", "Example title", ""⟩] _ (by decide)

/-- Counterexample to C9 as stated: the domain `en.www.example.com` has a
non-leading `"www."`; stripping only a leading `"www."` would preserve it,
but the emitted reference's `source` is `en.example.com` — the code removes
every occurrence. -/
theorem reference_source_www_ce :
    extract_references_from_html [⟨"https://en.www.example.com/x", "Example title", ""⟩] =
      [⟨"Example title", "https://en.www.example.com/x", "", "en.example.com",
        "", "", 1⟩] ∧
    stripLeadingWww (netlocOf "https://en.www.example.com/x") = "en.www.example.com" ∧
    "en.example.com" ≠ "en.www.example.com" := by
  decide

/-- C5 (amended): the harvesting loop excludes every image whose non-empty
alternative text contains `icon` (case-insensitively, at any length),
contains `logo` with total length under 20, equals
`image`/`photo`/`picture` case-insensitively, or is shorter than 3
characters; an image with empty alternative text and an unskipped source is
excluded only when its source mentions gstatic or google; the returned
`inline_images` has at most 5 entries. -/
theorem image_filter_amended :
    (∀ imgs : List ImgTag, (inline_images_of imgs).length ≤ 5) ∧
    (∀ img : ImgTag, img.alt ≠ "" → strContains (pyLower img.alt) "icon" = true →
      keepImg img = false) ∧
    (∀ img : ImgTag, img.alt ≠ "" → strContains (pyLower img.alt) "logo" = true →
      img.alt.length < 20 → keepImg img = false) ∧
    (∀ img : ImgTag, (pyLower img.alt = "image" ∨ pyLower img.alt = "photo" ∨
      pyLower img.alt = "picture") → keepImg img = false) ∧
    (∀ img : ImgTag, img.alt ≠ "" → img.alt.length < 3 → keepImg img = false) ∧
    (∀ img : ImgTag, img.alt = "" → imgSrcSkip img = false →
      strContains (pyLower img.src) "gstatic" = false →
      strContains (pyLower img.src) "google" = false → keepImg img = true) := by
  refine ⟨?_, ?_, ?_, ?_, ?_, ?_⟩
  · intro imgs
    simp [inline_images_of]
  · intro img h1 h2
    have halt : imgAltSkip img = true := by simp [imgAltSkip, h1, h2]
    simp [keepImg, halt]
  · intro img h1 h2 h3
    have halt : imgAltSkip img = true := by simp [imgAltSkip, h1, h2, h3]
    simp [keepImg, halt]
  · intro img h
    have h1 : img.alt ≠ "" := by
      intro he
      rw [he] at h
      rcases h with h | h | h <;> exact absurd h (by decide)
    have halt : imgAltSkip img = true := by
      rcases h with h | h | h <;> simp [imgAltSkip, h1, h]
    simp [keepImg, halt]
  · intro img h1 h2
    have halt : imgAltSkip img = true := by simp [imgAltSkip, h1, h2]
    simp [keepImg, halt]
  · intro img h1 h2 h3 h4
    simp [keepImg, imgAltSkip, imgInclude, h1, h2, h3, h4]

/-- Witness for C5 (amended): a short icon-labelled image is dropped; an
image with empty alternative text from a non-google source is kept. -/
theorem image_filter_amended_witness :
    keepImg ⟨"https://example.com/i.jpg", "small icon"⟩ = false ∧
    keepImg ⟨"https://example.com/e.jpg", ""⟩ = true :=
  ⟨image_filter_amended.2.1 _ (by decide) (by decide),
   image_filter_amended.2.2.2.2.2 _ rfl (by decide) (by decide) (by decide)⟩

/-- Counterexample to C5 as stated: an image with empty alternative text is
kept (the claim says it is excluded), and an icon-labelled image is dropped
even though its label has at least 20 characters (the claim says the length
exemption applies to icon labels too). -/
theorem image_filter_ce :
    inline_images_of [⟨"https://example.com/a.jpg", ""⟩] =
      [⟨"Image", "https://example.com/a.jpg", none, none⟩] ∧
    inline_images_of [⟨"https://example.com/b.jpg",
        "icon depicting the full solar system"⟩] = [] ∧
    ("icon depicting the full solar system" : String).length ≥ 20 := by
  decide

/-- `breakAtChar` finds the first occurrence: on `l1 ++ c :: l2` with no `c`
inside `l1`, it splits there. -/
theorem breakAtChar_append (c : Char) (l2 : List Char) :
    ∀ l1 : List Char, (∀ x ∈ l1, x ≠ c) →
      breakAtChar c (l1 ++ c :: l2) = some (l1, l2) := by
  intro l1
  induction l1 with
  | nil =>
    intro h
    simp [breakAtChar]
  | cons a l1' ih =>
    intro h
    have ha : a ≠ c := h a (List.mem_cons_self a l1')
    have h' : ∀ x ∈ l1', x ≠ c := fun x hx => h x (List.mem_cons_of_mem a hx)
    simp only [List.cons_append, breakAtChar, List.append_eq]
    rw [if_neg (by simpa using ha), ih h']

/-- C10: `unwrap_google_url` is the identity on every href carrying neither
redirect prefix; on a redirect-prefixed href it returns the first `q` query
parameter value when one exists and the href itself otherwise. -/
theorem unwrap_google_url_spec :
    (∀ href : String, pyStartsWith href "/url?" = false →
      pyStartsWith href "https://www.google.com/url?" = false →
      unwrap_google_url href = href) ∧
    (∀ href : String, pyStartsWith href "/url?" = true →
      qValues (pyDrop href 5) = [] → unwrap_google_url href = href) ∧
    (∀ (href v : String) (vs : List String), pyStartsWith href "/url?" = true →
      qValues (pyDrop href 5) = v :: vs → unwrap_google_url href = v) ∧
    (∀ rest : String, qValues rest = [] →
      unwrap_google_url ("https://www.google.com/url?" ++ rest) =
        "https://www.google.com/url?" ++ rest) ∧
    (∀ (rest v : String) (vs : List String), qValues rest = v :: vs →
      unwrap_google_url ("https://www.google.com/url?" ++ rest) = v) ∧
    unwrap_google_url "/url?q=https%3A%2F%2Fexample.com%2Fa&sa=U" =
      "https://example.com/a" ∧
    unwrap_google_url "/url?sa=U" = "/url?sa=U" ∧
    unwrap_google_url "https://www.google.com/url?q=https://example.com/b&x=1" =
      "https://example.com/b" := by
  have hgne : ∀ rest : String, ("https://www.google.com/url?" ++ rest) ≠ "" := by
    intro rest he
    have hd := congrArg String.data he
    rw [String.data_append, List.append_eq_nil] at hd
    exact absurd hd.1 (by decide)
  have hgs1 : ∀ rest : String,
      pyStartsWith ("https://www.google.com/url?" ++ rest) "/url?" = false :=
    fun rest => rfl
  have hgs2 : ∀ rest : String,
      pyStartsWith ("https://www.google.com/url?" ++ rest)
        "https://www.google.com/url?" = true :=
    fun rest => rfl
  have hgbreak : ∀ rest : String,
      breakAtChar '?' ("https://www.google.com/url?" ++ rest).data =
        some ("https://www.google.com/url".data, rest.data) := by
    intro rest
    have hd : ("https://www.google.com/url?" ++ rest).data =
        "https://www.google.com/url".data ++ '?' :: rest.data := rfl
    rw [hd]
    exact breakAtChar_append '?' rest.data _ (by decide)
  refine ⟨?_, ?_, ?_, ?_, ?_, by decide, by decide, by decide⟩
  · intro href h1 h2
    by_cases he : href = ""
    · rw [he]
      rfl
    · simp [unwrap_google_url, he, h1, h2]
  · intro href h1 hq
    have hne : href ≠ "" := by
      intro he
      rw [he] at h1
      exact absurd h1 (by decide)
    simp [unwrap_google_url, hne, h1, hq]
  · intro href v vs h1 hq
    have hne : href ≠ "" := by
      intro he
      rw [he] at h1
      exact absurd h1 (by decide)
    simp [unwrap_google_url, hne, h1, hq]
  · intro rest hq
    simp only [unwrap_google_url, hgne rest, hgs1 rest, hgs2 rest, hgbreak rest,
      if_neg, if_pos, Bool.false_eq_true, if_false, if_true]
    simp [hq]
  · intro rest v vs hq
    simp only [unwrap_google_url, hgne rest, hgs1 rest, hgs2 rest, hgbreak rest,
      if_neg, if_pos, Bool.false_eq_true, if_false, if_true]
    simp [hq]

/-- Witness for C10: a plain external href passes through unchanged. -/
theorem unwrap_google_url_spec_witness :
    unwrap_google_url "https://plain.example.com/page" =
      "https://plain.example.com/page" :=
  unwrap_google_url_spec.1 "https://plain.example.com/page" (by decide) (by decide)

end Scrapinghorse
